import Mathlib

/-!
# Verification of the `gotrace` ray tracer (src/src/go/gotrace.go)

Shallow embedding of the Go ray tracer over exact rationals.  The Go
program computes with `float32`; here every scalar is `ℚ` and the
`float32` square root `sqrtf` is an explicit parameter `sq : ℚ → ℚ`
threaded through every definition that the source computes with it.
A `float32` distance that can be `+Inf` is embedded as `Option ℚ`,
with `none` standing for `infinity` (the Go global
`var infinity float32 = float32(math.Inf(1))`).
-/

namespace GoTrace

/-- `Vec3` from the source: three scalar components. -/
structure Vec3 where
  x : ℚ
  y : ℚ
  z : ℚ
  deriving Repr, DecidableEq

/-- `vec3add` from the source. -/
def vec3add (a b : Vec3) : Vec3 := ⟨a.x + b.x, a.y + b.y, a.z + b.z⟩

/-- `vec3sub` from the source. -/
def vec3sub (a b : Vec3) : Vec3 := ⟨a.x - b.x, a.y - b.y, a.z - b.z⟩

/-- `vec3mulf` from the source. -/
def vec3mulf (a : Vec3) (b : ℚ) : Vec3 := ⟨a.x * b, a.y * b, a.z * b⟩

/-- `vec3dot` from the source. -/
def vec3dot (a b : Vec3) : ℚ := a.x * b.x + a.y * b.y + a.z * b.z

/-- `normalize` from the source: `vec3mulf(a, 1.0/sqrtf(vec3dot(a, a)))`. -/
def normalize (sq : ℚ → ℚ) (a : Vec3) : Vec3 :=
  vec3mulf a (1 / sq (vec3dot a a))

/-- `var backgroundColor Vec3 = Vec3{0.1, 0.1, 0.1}` -/
def backgroundColor : Vec3 := ⟨1/10, 1/10, 1/10⟩

/-- `var diffuseSphereColor Vec3 = Vec3{0.0, 0.7, 0.0}` -/
def diffuseSphereColor : Vec3 := ⟨0, 7/10, 0⟩

/-- `var ambientSphereColor Vec3 = Vec3{0.2, 0.3, 0.2}` -/
def ambientSphereColor : Vec3 := ⟨1/5, 3/10, 1/5⟩

/-- The literal `1.19209E-07` (float epsilon) from the `delta` global. -/
def floatEpsilon : ℚ := 119209 / 1000000000000

/-- `var delta float32 = float32(math.Sqrt(1.19209E-07))`. -/
def delta (sq : ℚ → ℚ) : ℚ := sq floatEpsilon

/-- `Sphere` from the source: center and radius. -/
structure Sphere where
  center : Vec3
  radius : ℚ
  deriving Repr, DecidableEq

/-- `Hit` from the source.  `distance` is a `float32` that is `infinity`
in the initial record, embedded as `Option ℚ` with `none` = `infinity`. -/
structure Hit where
  distance : Option ℚ
  pos : Vec3
  deriving Repr, DecidableEq

/-- `var hitinfinity Hit = Hit{infinity, Vec3{0, 0, 0}}` -/
def hitinfinity : Hit := ⟨none, ⟨0, 0, 0⟩⟩

/-- `Ray` from the source. -/
structure Ray where
  orig : Vec3
  dir : Vec3
  deriving Repr, DecidableEq

/-- Strict `<` on distances where `none` plays `+infinity`:
`dltb a b` is the Go comparison `a < b` on `float32` distances. -/
def dltb : Option ℚ → Option ℚ → Bool
  | none, _ => false
  | some _, none => true
  | some a, some b => decide (a < b)

/-- `≤` on distances where `none` plays `+infinity`. -/
def dleb : Option ℚ → Option ℚ → Bool
  | _, none => true
  | none, some _ => false
  | some a, some b => decide (a ≤ b)

/-- `Sphere.RaySphere` from the source:

    v := vec3sub(s.center, r.orig)
    b := vec3dot(v, r.dir)
    disc := b*b - vec3dot(v, v) + s.radius*s.radius
    if disc < 0.0 { return infinity }
    d := sqrtf(disc)
    t2 := b + d
    if t2 < 0.0 { return infinity }
    t1 := b - d
    if t1 > 0.0 { return t1 }
    return t2
-/
def Sphere.RaySphere (sq : ℚ → ℚ) (s : Sphere) (r : Ray) : Option ℚ :=
  let v := vec3sub s.center r.orig
  let b := vec3dot v r.dir
  let disc := b * b - vec3dot v v + s.radius * s.radius
  if disc < 0 then none
  else
    let d := sq disc
    let t2 := b + d
    if t2 < 0 then none
    else
      let t1 := b - d
      if t1 > 0 then some t1 else some t2

/-- `Sphere.Intersect` from the source:

    lambda := s.RaySphere(r)
    if lambda >= h.distance { return }
    h.distance = lambda
    h.pos = normalize(vec3add(r.orig, vec3sub(vec3mulf(r.dir, lambda), s.center)))
-/
def Sphere.Intersect (sq : ℚ → ℚ) (s : Sphere) (h : Hit) (r : Ray) : Hit :=
  match s.RaySphere sq r with
  | none => h
  | some lam =>
      if dleb h.distance (some lam) then h
      else ⟨some lam,
            normalize sq (vec3add r.orig (vec3sub (vec3mulf r.dir lam) s.center))⟩

/-- `Geometry` from the source: the interface realized by `Sphere` and
`Group` (a bounding `Sphere` plus an ordered list of children). -/
inductive Geometry where
  | sphere (s : Sphere)
  | group (bound : Sphere) (children : List Geometry)
  deriving Repr

mutual

/-- `Intersect` dispatched over `Geometry`: `Sphere.Intersect` on a leaf;
`Group.Intersect` from the source on a group:

    l := g.bound.RaySphere(r)
    if l >= h.distance { return }
    for _, c := range g.children { c.Intersect(h, r) }
-/
def Geometry.Intersect (sq : ℚ → ℚ) (g : Geometry) (h : Hit) (r : Ray) : Hit :=
  match g with
  | .sphere s => s.Intersect sq h r
  | .group bound cs =>
      if dleb h.distance (bound.RaySphere sq r) then h
      else Geometry.intersectList sq cs h r

/-- The `for _, c := range g.children` loop body of `Group.Intersect`:
each child updates the shared hit record in stored order. -/
def Geometry.intersectList (sq : ℚ → ℚ) (gs : List Geometry) (h : Hit) (r : Ray) : Hit :=
  match gs with
  | [] => h
  | c :: rest => Geometry.intersectList sq rest (c.Intersect sq h r) r

end

/-- `Scene` from the source: a light direction and a root geometry. -/
structure Scene where
  light : Vec3
  g : Geometry

/-- `Scene.rayTrace` from the source:

    var hit Hit = hitinfinity
    s.g.Intersect(&hit, r)
    if hit.distance == infinity { return backgroundColor }
    g := vec3dot(hit.pos, s.light)
    if g >= 0.0 { return ambientSphereColor }
    p := vec3add(r.orig, vec3add(vec3mulf(r.dir, hit.distance), vec3mulf(hit.pos, delta)))
    hit.distance = infinity
    s.g.Intersect(&hit, &Ray{p, vec3mulf(s.light, -1.0)})
    if hit.distance < infinity { return ambientSphereColor }
    return vec3add(ambientSphereColor, vec3mulf(diffuseSphereColor, -g))
-/
def Scene.rayTrace (sq : ℚ → ℚ) (s : Scene) (r : Ray) : Vec3 :=
  let hit := s.g.Intersect sq hitinfinity r
  match hit.distance with
  | none => backgroundColor
  | some d =>
      let g := vec3dot hit.pos s.light
      if 0 ≤ g then ambientSphereColor
      else
        let p := vec3add r.orig
          (vec3add (vec3mulf r.dir d) (vec3mulf hit.pos (delta sq)))
        let hit2 := s.g.Intersect sq ⟨none, hit.pos⟩ ⟨p, vec3mulf s.light (-1)⟩
        match hit2.distance with
        | some _ => ambientSphereColor
        | none => vec3add ambientSphereColor (vec3mulf diffuseSphereColor (-g))

/-- `createSpherePyramid` from the source, with `level` on unbounded
`ℤ`.  On the `level ≥ 1` domain this agrees with the machine-integer
semantics, since the decrement `level-1` never leaves `[1, level]` and
so never wraps (see `createSpherePyramidInt` for the two's-complement
model and `pyramidInt_eq_pyramid` for the agreement).  The embedding
makes the recursion depth explicit with a `fuel` argument, returning
`none` when the fuel runs out before the base case is reached:

    s := new(Sphere); s.center = c; s.radius = r
    if level == 1 { return s }
    children := make([]Geometry, 5)
    children[0] = s
    rn := 3.0 * r / sqrtf(12.0)
    for dz := -1; dz <= 1; dz += 2 {
      for dx := -1; dx <= 1; dx += 2 {
        newc := vec3add(c, vec3mulf(Vec3{dx, 1.0, dz}, rn))
        children[i] = createSpherePyramid(level-1, newc, r*0.5)
      }
    }
    return NewGroup(Sphere{c, 3 * r}, children)
-/
def createSpherePyramid (sq : ℚ → ℚ) (fuel : ℕ) (level : ℤ) (c : Vec3) (r : ℚ) :
    Option Geometry :=
  match fuel with
  | 0 => none
  | fuel + 1 =>
      if level = 1 then some (.sphere ⟨c, r⟩)
      else
        match
          createSpherePyramid sq fuel (level - 1)
            (vec3add c (vec3mulf ⟨-1, 1, -1⟩ (3 * r / sq 12))) (r * (1/2)),
          createSpherePyramid sq fuel (level - 1)
            (vec3add c (vec3mulf ⟨1, 1, -1⟩ (3 * r / sq 12))) (r * (1/2)),
          createSpherePyramid sq fuel (level - 1)
            (vec3add c (vec3mulf ⟨-1, 1, 1⟩ (3 * r / sq 12))) (r * (1/2)),
          createSpherePyramid sq fuel (level - 1)
            (vec3add c (vec3mulf ⟨1, 1, 1⟩ (3 * r / sq 12))) (r * (1/2)) with
        | some g1, some g2, some g3, some g4 =>
            some (.group ⟨c, 3 * r⟩ [.sphere ⟨c, r⟩, g1, g2, g3, g4])
        | _, _, _, _ => none

/-- Two's-complement wraparound of Go's 64-bit `int`: reduce into
`[-9223372036854775808, 9223372036854775808)` (that is,
`[-2^63, 2^63)`; `18446744073709551616 = 2^64`).  Go defines signed
integer overflow to wrap. -/
def wrap64 (x : ℤ) : ℤ :=
  (x + 9223372036854775808) % 18446744073709551616 - 9223372036854775808

/-- `createSpherePyramid` with the Go `int` semantics made explicit:
identical to `createSpherePyramid` except that the decrement
`level - 1` wraps around the 64-bit range, as Go's `int` does on a
64-bit platform.  Starting below 1 the decrement therefore descends to
`MinInt64`, wraps to `MaxInt64` and keeps descending until it reaches
the equality-tested base case `level == 1`. -/
def createSpherePyramidInt (sq : ℚ → ℚ) (fuel : ℕ) (level : ℤ) (c : Vec3) (r : ℚ) :
    Option Geometry :=
  match fuel with
  | 0 => none
  | fuel + 1 =>
      if level = 1 then some (.sphere ⟨c, r⟩)
      else
        match
          createSpherePyramidInt sq fuel (wrap64 (level - 1))
            (vec3add c (vec3mulf ⟨-1, 1, -1⟩ (3 * r / sq 12))) (r * (1/2)),
          createSpherePyramidInt sq fuel (wrap64 (level - 1))
            (vec3add c (vec3mulf ⟨1, 1, -1⟩ (3 * r / sq 12))) (r * (1/2)),
          createSpherePyramidInt sq fuel (wrap64 (level - 1))
            (vec3add c (vec3mulf ⟨-1, 1, 1⟩ (3 * r / sq 12))) (r * (1/2)),
          createSpherePyramidInt sq fuel (wrap64 (level - 1))
            (vec3add c (vec3mulf ⟨1, 1, 1⟩ (3 * r / sq 12))) (r * (1/2)) with
        | some g1, some g2, some g3, some g4 =>
            some (.group ⟨c, 3 * r⟩ [.sphere ⟨c, r⟩, g1, g2, g3, g4])
        | _, _, _, _ => none

/-- Pointwise byte update, modelling one assignment `t.buf[i] = v` into
the flat framebuffer byte array. -/
def updByte (buf : ℕ → ℕ) (i v : ℕ) : ℕ → ℕ :=
  fun j => if j = i then v else buf j

/-- `Texture` from the source: width, height and a flat byte buffer of
4 channels per pixel (embedded as a total function from byte index). -/
structure Texture where
  w : ℕ
  h : ℕ
  buf : ℕ → ℕ

/-- `Texture.SetRgba` from the source:

    o := 4 * (t.w*y + x)
    t.buf[o] = r; t.buf[o+1] = g; t.buf[o+2] = b; t.buf[o+3] = a
-/
def Texture.SetRgba (t : Texture) (x y r g b a : ℕ) : Texture :=
  let o := 4 * (t.w * y + x)
  { t with buf := updByte (updByte (updByte (updByte t.buf o r) (o+1) g) (o+2) b) (o+3) a }

/-- `f2b` from the source:

    scaled := 0.5 + f*255.0
    switch { case scaled < 0: scaled = 0; case scaled > 255: scaled = 255 }
    return byte(scaled)

(the final Go `byte(...)` conversion truncates the clamped value). -/
def f2b (f : ℚ) : ℕ :=
  let scaled := 1/2 + f * 255
  if scaled < 0 then 0
  else if scaled > 255 then 255
  else scaled.floor.toNat

/-- `Texture.SetV` from the source. -/
def Texture.SetV (t : Texture) (x y : ℕ) (v : Vec3) : Texture :=
  t.SetRgba x y (f2b v.x) (f2b v.y) (f2b v.z) 255

/-- `Rect` from the source: left/top/right/bottom pixel bounds,
half-open on right/bottom. -/
structure Rect where
  l : ℕ
  t : ℕ
  r : ℕ
  b : ℕ
  deriving Repr, DecidableEq

/-- `Camera` from the source. -/
structure Camera where
  eye : Vec3
  w : ℕ
  h : ℕ

/-- `Camera.setRayDirForPixel` from the source; returns the ray
direction it stores into `r.dir`:

    r.dir.x = x - float32(c.w)*0.5
    r.dir.y = y - float32(c.h)*0.5
    r.dir.z = float32(c.w)
    r.dir.normalize()
-/
def Camera.setRayDirForPixel (sq : ℚ → ℚ) (c : Camera) (x y : ℚ) : Vec3 :=
  normalize sq ⟨x - (c.w : ℚ) * (1/2), y - (c.h : ℚ) * (1/2), (c.w : ℚ)⟩

/-- `Renderer` from the source (the channels are scheduling plumbing;
the rendering state is the scene, camera and supersampling factor). -/
structure Renderer where
  scene : Scene
  cam : Camera
  ss : ℕ

/-- The supersampling accumulation loop of `Renderer.renderRect`: for a
pixel `(x, y)`, sum the traced colors of the `ss × ss` sub-samples at
`(x + ssx/ss, y + ssy/ss)`, `ssx` outer, `ssy` inner, starting from the
zero vector `var g Vec3`. -/
def subSampleColor (sq : ℚ → ℚ) (ren : Renderer) (x y : ℕ) : Vec3 :=
  List.foldl (fun g ssx =>
    List.foldl (fun g ssy =>
      vec3add g (ren.scene.rayTrace sq
        ⟨ren.cam.eye,
         ren.cam.setRayDirForPixel sq
           ((x : ℚ) + (ssx : ℚ) / (ren.ss : ℚ))
           ((y : ℚ) + (ssy : ℚ) / (ren.ss : ℚ))⟩))
      g (List.range ren.ss))
    ⟨0, 0, 0⟩ (List.range ren.ss)

/-- `Renderer.renderRect` from the source: for `y` from `r.t` to `r.b`
and `x` from `r.l` to `r.r`, average the `ss × ss` sub-samples and
write the pixel at `(x, cam.h - (y+1))`:

    ren.t.SetV(x, ren.cam.h-(y+1), vec3mulf(g, 1.0/float32(ren.ss*ren.ss)))

(`tint` is passed by the worker but unused, as in the source). -/
def Renderer.renderRect (sq : ℚ → ℚ) (ren : Renderer) (_tint : Vec3)
    (t : Texture) (r : Rect) : Texture :=
  List.foldl (fun t y =>
    List.foldl (fun t x =>
      t.SetV x (ren.cam.h - (y + 1))
        (vec3mulf (subSampleColor sq ren x y) (1 / ((ren.ss * ren.ss : ℕ) : ℚ))))
      t (List.range' r.l (r.r - r.l)))
    t (List.range' r.t (r.b - r.t))

/-- The tile jobs enqueued by `main`, in the order the scheduler sends
them on `jobChan`:

    for y := 0; y < h; y += chunkh {
      for x := 0; x < w; x += chunkw {
        renderer.jobChan <- Rect{x, y, x + chunkw, y + chunkh}
      }
    }

(for a positive step, `for v := 0; v < n; v += step` runs
`(n + step - 1) / step` times, visiting `v = step * i`). -/
def tileJobs (w h chunkw chunkh : ℕ) : List Rect :=
  (List.range' 0 ((h + chunkh - 1) / chunkh) chunkh).flatMap (fun y =>
    (List.range' 0 ((w + chunkw - 1) / chunkw) chunkw).map (fun x =>
      ⟨x, y, x + chunkw, y + chunkh⟩))

/-- Modelled from the spec: the externally-supplied input configuration
(spec §6) consumed by the core — recursion level, image width/height,
supersampling factor, worker count, tile width/height.  The repository's
configuration/CLI layer (the Rust front end driven by the Makefile) is
not among the provided sources. -/
structure Config where
  level : ℤ
  width : ℤ
  height : ℤ
  ss : ℤ
  workers : ℤ
  tileW : ℤ
  tileH : ℤ

/-- Modelled from the spec: construction-time parameter validation
(spec §7: "construction-time invalid parameters (recursion level < 1,
non-positive dimensions, zero tile size) — reject eagerly before
scheduling any work", with §6 giving the valid ranges: level ≥ 1,
width/height > 0, ss ≥ 1, workers ≥ 1, tile width/height > 0). -/
def validConfig (c : Config) : Bool :=
  decide (1 ≤ c.level) && decide (0 < c.width) && decide (0 < c.height) &&
  decide (1 ≤ c.ss) && decide (1 ≤ c.workers) &&
  decide (0 < c.tileW) && decide (0 < c.tileH)

/-- Modelled from the spec: the scheduling entry point validates the
configuration eagerly and only on success enumerates the tile jobs of
`main`'s scheduling loop; an invalid configuration yields an error
before any tile is produced. -/
def scheduleTiles (c : Config) : Except String (List Rect) :=
  if validConfig c then
    .ok (tileJobs c.width.toNat c.height.toNat c.tileW.toNat c.tileH.toNat)
  else
    .error "invalid parameters"

/-- The point `origin + t * dir` at parameter `t` along a ray (the
spec's notion of a point of the ray). -/
def rayAt (r : Ray) (t : ℚ) : Vec3 := vec3add r.orig (vec3mulf r.dir t)

/-- The spec's notion of a point lying on a sphere's surface:
`|p - center|² = radius²`. -/
def onSphere (s : Sphere) (p : Vec3) : Prop :=
  vec3dot (vec3sub p s.center) (vec3sub p s.center) = s.radius * s.radius

/-- The local `b` of `Sphere.RaySphere`: `dot(center - origin, dir)`. -/
def bOf (s : Sphere) (r : Ray) : ℚ := vec3dot (vec3sub s.center r.orig) r.dir

/-- The local `disc` of `Sphere.RaySphere`:
`b*b - dot(v, v) + radius*radius` for `v = center - origin`. -/
def discOf (s : Sphere) (r : Ray) : ℚ :=
  bOf s r * bOf s r -
    vec3dot (vec3sub s.center r.orig) (vec3sub s.center r.orig) +
    s.radius * s.radius

/-- The per-pixel averaged color written by `renderRect`:
`vec3mulf(g, 1.0/float32(ren.ss*ren.ss))` for the accumulated `g`. -/
def pixelColor (sq : ℚ → ℚ) (ren : Renderer) (x y : ℕ) : Vec3 :=
  vec3mulf (subSampleColor sq ren x y) (1 / ((ren.ss * ren.ss : ℕ) : ℚ))

/-- Channel `k` of the four bytes `SetV` stores for a color `v`:
`f2b v.x, f2b v.y, f2b v.z, 255`. -/
def pixByte (v : Vec3) (k : ℕ) : ℕ :=
  if k = 0 then f2b v.x else if k = 1 then f2b v.y else if k = 2 then f2b v.z
  else 255

/-- The pixel coordinates visited by `renderRect` on a rect, in loop
order: `y` from `t` to `b` (outer), `x` from `l` to `r` (inner). -/
def pixList (rc : Rect) : List (ℕ × ℕ) :=
  (List.range' rc.t (rc.b - rc.t)).flatMap (fun y =>
    (List.range' rc.l (rc.r - rc.l)).map (fun x => (x, y)))

/-- The spec's notion of a tile containing a pixel: bounds are
half-open on right/bottom. -/
def Rect.containsPix (rc : Rect) (px py : ℕ) : Prop :=
  rc.l ≤ px ∧ px < rc.r ∧ rc.t ≤ py ∧ py < rc.b

/-- Whether byte index `i` of the framebuffer (width `W`, camera height
`camH`) lies in the footprint written by tile `rc`: its pixel column is
`i / 4 % W`, its storage row `i / 4 / W`, and the row was produced from
the image row `camH - 1 - i / 4 / W` by the vertical flip. -/
def coversByte (camH W : ℕ) (rc : Rect) (i : ℕ) : Bool :=
  decide (rc.l ≤ i / 4 % W) && decide (i / 4 % W < rc.r) &&
  decide (rc.t ≤ camH - 1 - i / 4 / W) && decide (camH - 1 - i / 4 / W < rc.b) &&
  decide (i / 4 / W < camH)

/-!  ## Theorems  -/

theorem raySphere_eq (sq : ℚ → ℚ) (s : Sphere) (r : Ray) :
    s.RaySphere sq r =
      if discOf s r < 0 then none
      else if bOf s r + sq (discOf s r) < 0 then none
      else if 0 < bOf s r - sq (discOf s r) then some (bOf s r - sq (discOf s r))
      else some (bOf s r + sq (discOf s r)) := rfl

theorem dot_rayAt_sub_center (s : Sphere) (r : Ray) (t : ℚ) :
    vec3dot (vec3sub (rayAt r t) s.center) (vec3sub (rayAt r t) s.center) =
      t * t * vec3dot r.dir r.dir - 2 * t * bOf s r +
        vec3dot (vec3sub s.center r.orig) (vec3sub s.center r.orig) := by
  simp only [rayAt, bOf, vec3add, vec3sub, vec3mulf, vec3dot]
  ring

/-- C1: `raySphere` returns +infinity when the discriminant
`disc = b*b - dot(v,v) + radius*radius` is negative (`v = center - origin`,
`b = dot(v, dir)`); +infinity when `t2 = b + sqrt(disc)` is negative;
otherwise `t1 = b - sqrt(disc)` if `t1 > 0`, else `t2`.  In particular
(for a unit ray direction and an exact square root of the
discriminant), for any Sphere and Ray that does not intersect it,
`raySphere` returns +infinity (`none`). -/
theorem C1_raySphere_cases_and_miss (sq : ℚ → ℚ) (s : Sphere) (r : Ray)
    (hdir : vec3dot r.dir r.dir = 1)
    (hsq : 0 ≤ discOf s r →
      sq (discOf s r) * sq (discOf s r) = discOf s r ∧ 0 ≤ sq (discOf s r)) :
    (discOf s r < 0 → s.RaySphere sq r = none) ∧
    (0 ≤ discOf s r → bOf s r + sq (discOf s r) < 0 → s.RaySphere sq r = none) ∧
    (0 ≤ discOf s r → 0 ≤ bOf s r + sq (discOf s r) →
      s.RaySphere sq r =
        some (if 0 < bOf s r - sq (discOf s r) then bOf s r - sq (discOf s r)
              else bOf s r + sq (discOf s r))) ∧
    ((¬ ∃ t : ℚ, 0 ≤ t ∧ onSphere s (rayAt r t)) → s.RaySphere sq r = none) := by
  refine ⟨?_, ?_, ?_, ?_⟩
  · intro hlt
    rw [raySphere_eq, if_pos hlt]
  · intro hge hneg
    rw [raySphere_eq, if_neg (not_lt.mpr hge), if_pos hneg]
  · intro hge hpos
    rw [raySphere_eq, if_neg (not_lt.mpr hge), if_neg (not_lt.mpr hpos)]
    split <;> rfl
  · intro hmiss
    by_contra hne
    rcases hD : decide (discOf s r < 0) with hD0 | hD1
    · have hge : 0 ≤ discOf s r := not_lt.mp (of_decide_eq_false hD)
      obtain ⟨hsq1, _⟩ := hsq hge
      rcases hT : decide (bOf s r + sq (discOf s r) < 0) with hT0 | hT1
      · have ht2 : 0 ≤ bOf s r + sq (discOf s r) :=
          not_lt.mp (of_decide_eq_false hT)
        -- the returned value is a genuine intersection parameter
        have honq : ∀ t : ℚ, (t - bOf s r) * (t - bOf s r) =
            sq (discOf s r) * sq (discOf s r) → onSphere s (rayAt r t) := by
          intro t ht
          unfold onSphere
          rw [dot_rayAt_sub_center, hdir]
          have hdisc : discOf s r =
              bOf s r * bOf s r -
                vec3dot (vec3sub s.center r.orig) (vec3sub s.center r.orig) +
                s.radius * s.radius := rfl
          nlinarith [ht, hsq1]
        rcases ht1 : decide (0 < bOf s r - sq (discOf s r)) with ht10 | ht11
        · -- t1 ≤ 0: the result is t2 = b + sqrt(disc) ≥ 0
          exact hmiss ⟨bOf s r + sq (discOf s r), ht2, honq _ (by ring)⟩
        · -- t1 > 0: the result is t1 = b - sqrt(disc) > 0
          have h1 : 0 < bOf s r - sq (discOf s r) := of_decide_eq_true ht1
          exact hmiss ⟨bOf s r - sq (discOf s r), le_of_lt h1, honq _ (by ring)⟩
      · have : s.RaySphere sq r = none := by
          rw [raySphere_eq, if_neg (not_lt.mpr hge), if_pos (of_decide_eq_true hT)]
        exact hne this
    · have : s.RaySphere sq r = none := by
        rw [raySphere_eq, if_pos (of_decide_eq_true hD)]
      exact hne this

/-- Witness for C1 at a concrete miss: the sphere of radius 1 at
(0,0,5) and the ray from the origin along (1,0,0); the discriminant is
-24, so `raySphere` returns +infinity. -/
theorem C1_witness :
    Sphere.RaySphere (fun _ => 0) ⟨⟨0, 0, 5⟩, 1⟩ ⟨⟨0, 0, 0⟩, ⟨1, 0, 0⟩⟩ = none :=
  (C1_raySphere_cases_and_miss (fun _ => 0) ⟨⟨0, 0, 5⟩, 1⟩ ⟨⟨0, 0, 0⟩, ⟨1, 0, 0⟩⟩
    (by norm_num [vec3dot]) (by intro h; exact absurd h (by norm_num [discOf, bOf, vec3dot, vec3sub]))).1
    (by norm_num [discOf, bOf, vec3dot, vec3sub])

theorem dleb_refl (a : Option ℚ) : dleb a a = true := by
  cases a <;> simp [dleb]

theorem dleb_of_not_dleb {a : Option ℚ} (lam : ℚ)
    (hne : ¬ dleb a (some lam) = true) : dleb (some lam) a = true := by
  cases a with
  | none => rfl
  | some d =>
      simp only [dleb, decide_eq_true_eq] at hne ⊢
      exact le_of_not_le hne

/-- C2: `Sphere.Intersect` never increases `hit.distance`; if
`raySphere(ray) >= hit.distance` the Hit is left completely unchanged
(ties favor the previously recorded hit), and otherwise `hit.distance`
is overwritten with the strictly smaller `raySphere` value and
`hit.pos` with `normalize(origin + distance*dir - center)`. -/
theorem C2_sphere_intersect (sq : ℚ → ℚ) (s : Sphere) (h : Hit) (r : Ray) :
    (dleb h.distance (s.RaySphere sq r) = true → s.Intersect sq h r = h) ∧
    (∀ lam : ℚ, s.RaySphere sq r = some lam →
      dltb (some lam) h.distance = true →
      s.Intersect sq h r =
        ⟨some lam,
         normalize sq (vec3add r.orig (vec3sub (vec3mulf r.dir lam) s.center))⟩) ∧
    dleb (s.Intersect sq h r).distance h.distance = true := by
  refine ⟨?_, ?_, ?_⟩
  · intro hle
    unfold Sphere.Intersect
    cases hrs : s.RaySphere sq r with
    | none => rfl
    | some lam =>
        rw [hrs] at hle
        simp [hle]
  · intro lam heq hlt
    unfold Sphere.Intersect
    rw [heq]
    have hne : dleb h.distance (some lam) = false := by
      cases hd : h.distance with
      | none => rfl
      | some d =>
          rw [hd] at hlt
          simp only [dltb, decide_eq_true_eq] at hlt
          simp only [dleb, decide_eq_false_iff_not]
          exact not_le.mpr hlt
    simp [hne]
  · unfold Sphere.Intersect
    cases hrs : s.RaySphere sq r with
    | none => exact dleb_refl _
    | some lam =>
        by_cases hle : dleb h.distance (some lam) = true
        · simp [hle, dleb_refl]
        · have hf : dleb h.distance (some lam) = false :=
            Bool.not_eq_true _ |>.mp hle
          simp only [hf, Bool.false_eq_true, if_false]
          exact dleb_of_not_dleb lam hle

/-- Witness for C2: a ray from the origin hits the sphere of radius 1
at (0,0,3) at distance 2, overwriting the infinite initial hit, and the
resulting distance is not above the initial one. -/
theorem C2_witness :
    (Sphere.Intersect (fun q => q) ⟨⟨0, 0, 3⟩, 1⟩ hitinfinity ⟨⟨0, 0, 0⟩, ⟨0, 0, 1⟩⟩ =
      ⟨some 2, normalize (fun q => q)
        (vec3add ⟨0, 0, 0⟩ (vec3sub (vec3mulf ⟨0, 0, 1⟩ 2) ⟨0, 0, 3⟩))⟩) ∧
    dleb (Sphere.Intersect (fun q => q) ⟨⟨0, 0, 3⟩, 1⟩ hitinfinity
      ⟨⟨0, 0, 0⟩, ⟨0, 0, 1⟩⟩).distance hitinfinity.distance = true :=
  ⟨(C2_sphere_intersect (fun q => q) ⟨⟨0, 0, 3⟩, 1⟩ hitinfinity
      ⟨⟨0, 0, 0⟩, ⟨0, 0, 1⟩⟩).2.1 2 (by norm_num [Sphere.RaySphere, vec3dot, vec3sub]) rfl,
   (C2_sphere_intersect (fun q => q) ⟨⟨0, 0, 3⟩, 1⟩ hitinfinity
      ⟨⟨0, 0, 0⟩, ⟨0, 0, 1⟩⟩).2.2⟩

theorem intersectList_eq_foldl (sq : ℚ → ℚ) (gs : List Geometry) (h : Hit) (r : Ray) :
    Geometry.intersectList sq gs h r =
      List.foldl (fun h c => Geometry.Intersect sq c h r) h gs := by
  induction gs generalizing h with
  | nil => rfl
  | cons c rest ih =>
      rw [Geometry.intersectList, List.foldl_cons, ih]

/-- C3: `Group.Intersect` first evaluates `raySphere` on the group's
bounding sphere; if that distance is `>=` the current `hit.distance` it
returns with the Hit unchanged and no child is visited (the result does
not depend on the children); otherwise it folds `Intersect` over every
child in stored order with no early exit. -/
theorem C3_group_prune_and_order (sq : ℚ → ℚ) (bound : Sphere)
    (cs : List Geometry) (h : Hit) (r : Ray) :
    (dleb h.distance (bound.RaySphere sq r) = true →
      Geometry.Intersect sq (.group bound cs) h r = h ∧
      ∀ cs' : List Geometry,
        Geometry.Intersect sq (.group bound cs') h r =
          Geometry.Intersect sq (.group bound cs) h r) ∧
    (dleb h.distance (bound.RaySphere sq r) = false →
      Geometry.Intersect sq (.group bound cs) h r =
        List.foldl (fun h c => Geometry.Intersect sq c h r) h cs) := by
  constructor
  · intro hle
    constructor
    · rw [Geometry.Intersect, if_pos hle]
    · intro cs'
      rw [Geometry.Intersect, if_pos hle, Geometry.Intersect, if_pos hle]
  · intro hlt
    rw [Geometry.Intersect, if_neg (by simp [hlt]), intersectList_eq_foldl]

/-- Witness for C3: with a current hit at distance 1 and a bounding
sphere first met at distance 2, the subtree is pruned: the Hit comes
back unchanged even though the child list contains a closer sphere. -/
theorem C3_witness :
    Geometry.Intersect (fun q => q)
      (.group ⟨⟨0, 0, 3⟩, 1⟩ [.sphere ⟨⟨0, 0, 1⟩, 1⟩])
      ⟨some 1, ⟨0, 0, 0⟩⟩ ⟨⟨0, 0, 0⟩, ⟨0, 0, 1⟩⟩ = ⟨some 1, ⟨0, 0, 0⟩⟩ :=
  ((C3_group_prune_and_order (fun q => q) ⟨⟨0, 0, 3⟩, 1⟩
      [.sphere ⟨⟨0, 0, 1⟩, 1⟩] ⟨some 1, ⟨0, 0, 0⟩⟩ ⟨⟨0, 0, 0⟩, ⟨0, 0, 1⟩⟩).1
    (by norm_num [Sphere.RaySphere, vec3dot, vec3sub, dleb])).1

/-- C4: the tracer returns the background color (0.1,0.1,0.1) when
intersecting the scene root from `Hit{distance=+infinity}` leaves the
distance at +infinity; the ambient color (0.2,0.3,0.2) when
`g = dot(hit normal, light direction) >= 0`; the ambient color when a
shadow ray, cast from the hit point offset by `delta` (the square root
of the float-epsilon literal `1.19209E-07`) along the normal toward
the negated light direction, hits anything at a finite distance; and
otherwise `ambient + diffuse*(-g)` with diffuse (0.0,0.7,0.0). -/
theorem C4_rayTrace_cases (sq : ℚ → ℚ) (s : Scene) (r : Ray) :
    ((s.g.Intersect sq hitinfinity r).distance = none →
      s.rayTrace sq r = backgroundColor) ∧
    (backgroundColor = ⟨1/10, 1/10, 1/10⟩ ∧
     ambientSphereColor = ⟨1/5, 3/10, 1/5⟩ ∧
     diffuseSphereColor = ⟨0, 7/10, 0⟩ ∧
     delta sq = sq (119209 / 1000000000000)) ∧
    (∀ d : ℚ, (s.g.Intersect sq hitinfinity r).distance = some d →
      (0 ≤ vec3dot (s.g.Intersect sq hitinfinity r).pos s.light →
        s.rayTrace sq r = ambientSphereColor) ∧
      (vec3dot (s.g.Intersect sq hitinfinity r).pos s.light < 0 →
        ((s.g.Intersect sq ⟨none, (s.g.Intersect sq hitinfinity r).pos⟩
            ⟨vec3add r.orig (vec3add (vec3mulf r.dir d)
               (vec3mulf (s.g.Intersect sq hitinfinity r).pos (delta sq))),
             vec3mulf s.light (-1)⟩).distance ≠ none →
          s.rayTrace sq r = ambientSphereColor) ∧
        ((s.g.Intersect sq ⟨none, (s.g.Intersect sq hitinfinity r).pos⟩
            ⟨vec3add r.orig (vec3add (vec3mulf r.dir d)
               (vec3mulf (s.g.Intersect sq hitinfinity r).pos (delta sq))),
             vec3mulf s.light (-1)⟩).distance = none →
          s.rayTrace sq r =
            vec3add ambientSphereColor
              (vec3mulf diffuseSphereColor
                (-(vec3dot (s.g.Intersect sq hitinfinity r).pos s.light)))))) := by
  refine ⟨?_, ⟨rfl, rfl, rfl, rfl⟩, ?_⟩
  · intro hd
    simp only [Scene.rayTrace, hd]
  · intro d hd
    constructor
    · intro hg
      simp only [Scene.rayTrace, hd, if_pos hg]
    · intro hg
      have hg' : ¬ 0 ≤ vec3dot (s.g.Intersect sq hitinfinity r).pos s.light :=
        not_le.mpr hg
      constructor
      · intro hsh
        simp only [Scene.rayTrace, hd, if_neg hg']
        cases hsd : (s.g.Intersect sq ⟨none, (s.g.Intersect sq hitinfinity r).pos⟩
            ⟨vec3add r.orig (vec3add (vec3mulf r.dir d)
               (vec3mulf (s.g.Intersect sq hitinfinity r).pos (delta sq))),
             vec3mulf s.light (-1)⟩).distance with
        | none => exact absurd hsd hsh
        | some d2 => simp only [hsd]
      · intro hsh
        simp only [Scene.rayTrace, hd, if_neg hg', hsh]

/-- Witness for C4: a ray that misses the whole scene produces exactly
the background color. -/
theorem C4_witness :
    Scene.rayTrace (fun q => q) ⟨⟨0, 0, 1⟩, .sphere ⟨⟨0, 0, 5⟩, 1⟩⟩
      ⟨⟨0, 0, 0⟩, ⟨1, 0, 0⟩⟩ = backgroundColor :=
  (C4_rayTrace_cases (fun q => q) ⟨⟨0, 0, 1⟩, .sphere ⟨⟨0, 0, 5⟩, 1⟩⟩
      ⟨⟨0, 0, 0⟩, ⟨1, 0, 0⟩⟩).1
    (by norm_num [Geometry.Intersect, Sphere.Intersect, Sphere.RaySphere,
      vec3dot, vec3sub, hitinfinity])

theorem createSpherePyramid_mono (sq : ℚ → ℚ) :
    ∀ fuel fuel' : ℕ, fuel ≤ fuel' → ∀ (level : ℤ) (c : Vec3) (r : ℚ) (g : Geometry),
      createSpherePyramid sq fuel level c r = some g →
      createSpherePyramid sq fuel' level c r = some g := by
  intro fuel
  induction fuel with
  | zero => intro fuel' _ level c r g hg; cases hg
  | succ f ih =>
      intro fuel' hle level c r g hg
      obtain ⟨f', rfl⟩ : ∃ f', fuel' = f' + 1 := ⟨fuel' - 1, by omega⟩
      have hff : f ≤ f' := by omega
      by_cases hl : level = 1
      · rw [createSpherePyramid, if_pos hl] at hg
        rw [createSpherePyramid, if_pos hl]
        exact hg
      · rw [createSpherePyramid, if_neg hl] at hg
        rw [createSpherePyramid, if_neg hl]
        cases h1 : createSpherePyramid sq f (level - 1)
            (vec3add c (vec3mulf ⟨-1, 1, -1⟩ (3 * r / sq 12))) (r * (1/2)) with
        | none => rw [h1] at hg; simp at hg
        | some g1 =>
        cases h2 : createSpherePyramid sq f (level - 1)
            (vec3add c (vec3mulf ⟨1, 1, -1⟩ (3 * r / sq 12))) (r * (1/2)) with
        | none => rw [h1, h2] at hg; simp at hg
        | some g2 =>
        cases h3 : createSpherePyramid sq f (level - 1)
            (vec3add c (vec3mulf ⟨-1, 1, 1⟩ (3 * r / sq 12))) (r * (1/2)) with
        | none => rw [h1, h2, h3] at hg; simp at hg
        | some g3 =>
        cases h4 : createSpherePyramid sq f (level - 1)
            (vec3add c (vec3mulf ⟨1, 1, 1⟩ (3 * r / sq 12))) (r * (1/2)) with
        | none => rw [h1, h2, h3, h4] at hg; simp at hg
        | some g4 =>
            rw [h1, h2, h3, h4] at hg
            rw [ih f' hff _ _ _ _ h1, ih f' hff _ _ _ _ h2,
              ih f' hff _ _ _ _ h3, ih f' hff _ _ _ _ h4]
            exact hg

theorem createSpherePyramid_terminates (sq : ℚ → ℚ) :
    ∀ (n : ℕ) (level : ℤ), 1 ≤ level → level ≤ (n : ℤ) → ∀ (c : Vec3) (r : ℚ),
      ∃ g, createSpherePyramid sq n level c r = some g := by
  intro n
  induction n with
  | zero => intro level h1 h2 c r; omega
  | succ f ih =>
      intro level h1 h2 c r
      by_cases hl : level = 1
      · exact ⟨.sphere ⟨c, r⟩, by rw [createSpherePyramid, if_pos hl]⟩
      · have hlev : 1 ≤ level - 1 := by omega
        have hlev2 : level - 1 ≤ (f : ℤ) := by omega
        obtain ⟨g1, h1'⟩ := ih (level - 1) hlev hlev2
          (vec3add c (vec3mulf ⟨-1, 1, -1⟩ (3 * r / sq 12))) (r * (1/2))
        obtain ⟨g2, h2'⟩ := ih (level - 1) hlev hlev2
          (vec3add c (vec3mulf ⟨1, 1, -1⟩ (3 * r / sq 12))) (r * (1/2))
        obtain ⟨g3, h3'⟩ := ih (level - 1) hlev hlev2
          (vec3add c (vec3mulf ⟨-1, 1, 1⟩ (3 * r / sq 12))) (r * (1/2))
        obtain ⟨g4, h4'⟩ := ih (level - 1) hlev hlev2
          (vec3add c (vec3mulf ⟨1, 1, 1⟩ (3 * r / sq 12))) (r * (1/2))
        refine ⟨.group ⟨c, 3 * r⟩ [.sphere ⟨c, r⟩, g1, g2, g3, g4], ?_⟩
        rw [createSpherePyramid, if_neg hl, h1', h2', h3', h4']

theorem wrap64_bounds (x : ℤ) :
    -9223372036854775808 ≤ wrap64 x ∧ wrap64 x < 9223372036854775808 := by
  unfold wrap64
  omega

theorem wrap64_eq_self {x : ℤ} (h1 : -9223372036854775808 ≤ x)
    (h2 : x < 9223372036854775808) : wrap64 x = x := by
  unfold wrap64
  omega

theorem wrap64_steps_pred {level : ℤ} (h1 : -9223372036854775808 ≤ level)
    (h2 : level < 9223372036854775808) (hne : level ≠ 1) :
    (wrap64 (level - 1) - 1) % 18446744073709551616 =
      (level - 1) % 18446744073709551616 - 1 := by
  unfold wrap64
  omega

theorem pyramidInt_terminates (sq : ℚ → ℚ) :
    ∀ (n : ℕ) (level : ℤ), -9223372036854775808 ≤ level →
      level < 9223372036854775808 →
      ((level - 1) % 18446744073709551616).toNat < n → ∀ (c : Vec3) (r : ℚ),
      ∃ g, createSpherePyramidInt sq n level c r = some g := by
  intro n
  induction n with
  | zero => intro level _ _ h3 c r; omega
  | succ m ih =>
      intro level h1 h2 h3 c r
      by_cases hl : level = 1
      · exact ⟨.sphere ⟨c, r⟩, by rw [createSpherePyramidInt, if_pos hl]⟩
      · have hb := wrap64_bounds (level - 1)
        have hsp := wrap64_steps_pred h1 h2 hl
        have hnz : (level - 1) % 18446744073709551616 ≠ 0 := by omega
        have hstep : ((wrap64 (level - 1) - 1) % 18446744073709551616).toNat < m := by
          omega
        obtain ⟨g1, hg1⟩ := ih (wrap64 (level - 1)) hb.1 hb.2 hstep
          (vec3add c (vec3mulf ⟨-1, 1, -1⟩ (3 * r / sq 12))) (r * (1/2))
        obtain ⟨g2, hg2⟩ := ih (wrap64 (level - 1)) hb.1 hb.2 hstep
          (vec3add c (vec3mulf ⟨1, 1, -1⟩ (3 * r / sq 12))) (r * (1/2))
        obtain ⟨g3, hg3⟩ := ih (wrap64 (level - 1)) hb.1 hb.2 hstep
          (vec3add c (vec3mulf ⟨-1, 1, 1⟩ (3 * r / sq 12))) (r * (1/2))
        obtain ⟨g4, hg4⟩ := ih (wrap64 (level - 1)) hb.1 hb.2 hstep
          (vec3add c (vec3mulf ⟨1, 1, 1⟩ (3 * r / sq 12))) (r * (1/2))
        exact ⟨.group ⟨c, 3 * r⟩ [.sphere ⟨c, r⟩, g1, g2, g3, g4],
          by rw [createSpherePyramidInt, if_neg hl, hg1, hg2, hg3, hg4]⟩

theorem pyramidInt_diverges_before_wrap (sq : ℚ → ℚ) :
    ∀ (fuel : ℕ) (level : ℤ), -9223372036854775808 ≤ level →
      level < 9223372036854775808 →
      (fuel : ℤ) ≤ (level - 1) % 18446744073709551616 → ∀ (c : Vec3) (r : ℚ),
      createSpherePyramidInt sq fuel level c r = none := by
  intro fuel
  induction fuel with
  | zero => intro level _ _ _ c r; rfl
  | succ f ih =>
      intro level h1 h2 hf c r
      have hl : ¬ level = 1 := by
        intro h
        subst h
        simp at hf
        omega
      have hb := wrap64_bounds (level - 1)
      have hsp := wrap64_steps_pred h1 h2 hl
      have hf' : (f : ℤ) ≤ (wrap64 (level - 1) - 1) % 18446744073709551616 := by
        push_cast at hf ⊢
        omega
      rw [createSpherePyramidInt, if_neg hl, ih (wrap64 (level - 1)) hb.1 hb.2 hf']

theorem pyramidInt_eq_pyramid (sq : ℚ → ℚ) :
    ∀ (fuel : ℕ) (level : ℤ), 1 ≤ level → level < 9223372036854775808 →
      ∀ (c : Vec3) (r : ℚ),
      createSpherePyramidInt sq fuel level c r = createSpherePyramid sq fuel level c r := by
  intro fuel
  induction fuel with
  | zero => intro level _ _ c r; rfl
  | succ f ih =>
      intro level h1 h2 c r
      by_cases hl : level = 1
      · rw [createSpherePyramidInt, createSpherePyramid, if_pos hl, if_pos hl]
      · have hw : wrap64 (level - 1) = level - 1 :=
          wrap64_eq_self (by omega) (by omega)
        rw [createSpherePyramidInt, createSpherePyramid, if_neg hl, if_neg hl, hw]
        simp only [ih (level - 1) (by omega) (by omega)]

/-- C10 (amended): `createSpherePyramid` terminates for every
`level >= 1` (each recursive call decreases `level` by exactly 1
toward the equality-tested base case `level == 1`, and on that domain
the wrapping and unbounded models agree); for `level < 1` the base
case is not reached within `(level - 1) mod 2^64` recursive steps —
but, because Go's 64-bit `int` decrement wraps, it IS reached once the
decrement wraps around, after exactly that many steps.  So
`level >= 1` bounds the recursion depth by `level`; for `level < 1`
the recursion still terminates semantically, only at a depth of the
order of `2^64`. -/
theorem C10_pyramid_termination_wrap (sq : ℚ → ℚ) (level : ℤ) (c : Vec3) (r : ℚ)
    (hlo : -9223372036854775808 ≤ level) (hhi : level < 9223372036854775808) :
    (1 ≤ level →
      (createSpherePyramidInt sq level.toNat level c r).isSome = true ∧
      ∀ fuel : ℕ, createSpherePyramidInt sq fuel level c r =
        createSpherePyramid sq fuel level c r) ∧
    (level < 1 →
      (∀ fuel : ℕ, (fuel : ℤ) ≤ (level - 1) % 18446744073709551616 →
        createSpherePyramidInt sq fuel level c r = none) ∧
      (createSpherePyramidInt sq
        (((level - 1) % 18446744073709551616).toNat + 1) level c r).isSome = true) := by
  constructor
  · intro h1
    constructor
    · obtain ⟨g, hg⟩ := pyramidInt_terminates sq level.toNat level hlo hhi
        (by omega) c r
      rw [hg]
      rfl
    · intro fuel
      exact pyramidInt_eq_pyramid sq fuel level h1 hhi c r
  · intro hlt
    constructor
    · intro fuel hfuel
      exact pyramidInt_diverges_before_wrap sq fuel level hlo hhi hfuel c r
    · obtain ⟨g, hg⟩ := pyramidInt_terminates sq
        (((level - 1) % 18446744073709551616).toNat + 1) level hlo hhi (by omega) c r
      rw [hg]
      rfl

/-- Counterexample to C10 as stated: at `level = 0 < 1` the
equality-tested base case IS eventually reached under Go's wrapping
`int` semantics — the decrement descends to `MinInt64`, wraps to
`MaxInt64` and reaches `1` after `2^64 - 1` steps, so recursion depth
`2^64` produces a result. -/
theorem C10_counterexample :
    (0 : ℤ) < 1 ∧
    (createSpherePyramidInt (fun q => q) 18446744073709551616 0
      ⟨0, 0, 0⟩ 1).isSome = true := by
  refine ⟨by norm_num, ?_⟩
  obtain ⟨g, hg⟩ := pyramidInt_terminates (fun q => q) 18446744073709551616 0
    (by norm_num) (by norm_num) (by omega) ⟨0, 0, 0⟩ 1
  rw [hg]
  rfl

/-- Witness for C10 (amended): level 1 terminates with its own fuel,
and level 0 produces nothing at the wrap-free depth 3. -/
theorem C10_wrap_witness :
    (createSpherePyramidInt (fun q => q) (Int.toNat 1) 1 ⟨0, 0, 0⟩ 1).isSome = true ∧
    createSpherePyramidInt (fun q => q) 3 0 ⟨0, 0, 0⟩ 1 = none :=
  ⟨((C10_pyramid_termination_wrap (fun q => q) 1 ⟨0, 0, 0⟩ 1
      (by norm_num) (by norm_num)).1 (by norm_num)).1,
   ((C10_pyramid_termination_wrap (fun q => q) 0 ⟨0, 0, 0⟩ 1
      (by norm_num) (by norm_num)).2 (by norm_num)).1 3 (by omega)⟩

/-- C6: the scene builder with `level == 1` returns the single leaf
Sphere(c, r); with `level > 1` it returns a Group whose bounding sphere
is Sphere(c, 3*r) and whose 5 children are, in order, Sphere(c, r)
followed by the four recursively-built sub-pyramids at `level-1`,
radius `r/2`, and centers `c + (3*r/sqrt(12))*(dx, 1, dz)` for
`(dz, dx)` ranging over {-1, 1} in loop order. -/
theorem C6_pyramid_structure (sq : ℚ → ℚ) (level : ℤ) (c : Vec3) (r : ℚ)
    (fuel : ℕ) (h1 : 1 ≤ level) (hf : level.toNat ≤ fuel) :
    (level = 1 → createSpherePyramid sq fuel level c r = some (.sphere ⟨c, r⟩)) ∧
    (1 < level → ∃ g1 g2 g3 g4 : Geometry,
      createSpherePyramid sq fuel (level - 1)
        (vec3add c (vec3mulf ⟨-1, 1, -1⟩ (3 * r / sq 12))) (r * (1/2)) = some g1 ∧
      createSpherePyramid sq fuel (level - 1)
        (vec3add c (vec3mulf ⟨1, 1, -1⟩ (3 * r / sq 12))) (r * (1/2)) = some g2 ∧
      createSpherePyramid sq fuel (level - 1)
        (vec3add c (vec3mulf ⟨-1, 1, 1⟩ (3 * r / sq 12))) (r * (1/2)) = some g3 ∧
      createSpherePyramid sq fuel (level - 1)
        (vec3add c (vec3mulf ⟨1, 1, 1⟩ (3 * r / sq 12))) (r * (1/2)) = some g4 ∧
      createSpherePyramid sq fuel level c r =
        some (.group ⟨c, 3 * r⟩ [.sphere ⟨c, r⟩, g1, g2, g3, g4])) := by
  constructor
  · intro hl
    subst hl
    obtain ⟨f, rfl⟩ : ∃ f, fuel = f + 1 := ⟨fuel - 1, by omega⟩
    rw [createSpherePyramid, if_pos rfl]
  · intro hgt
    have hl : ¬ level = 1 := by omega
    obtain ⟨f, rfl⟩ : ∃ f, fuel = f + 1 := ⟨fuel - 1, by omega⟩
    have hlev : 1 ≤ level - 1 := by omega
    have hlev2 : level - 1 ≤ (f : ℤ) := by omega
    obtain ⟨g1, h1'⟩ := createSpherePyramid_terminates sq f (level - 1) hlev hlev2
      (vec3add c (vec3mulf ⟨-1, 1, -1⟩ (3 * r / sq 12))) (r * (1/2))
    obtain ⟨g2, h2'⟩ := createSpherePyramid_terminates sq f (level - 1) hlev hlev2
      (vec3add c (vec3mulf ⟨1, 1, -1⟩ (3 * r / sq 12))) (r * (1/2))
    obtain ⟨g3, h3'⟩ := createSpherePyramid_terminates sq f (level - 1) hlev hlev2
      (vec3add c (vec3mulf ⟨-1, 1, 1⟩ (3 * r / sq 12))) (r * (1/2))
    obtain ⟨g4, h4'⟩ := createSpherePyramid_terminates sq f (level - 1) hlev hlev2
      (vec3add c (vec3mulf ⟨1, 1, 1⟩ (3 * r / sq 12))) (r * (1/2))
    refine ⟨g1, g2, g3, g4,
      createSpherePyramid_mono sq f (f+1) (by omega) _ _ _ _ h1',
      createSpherePyramid_mono sq f (f+1) (by omega) _ _ _ _ h2',
      createSpherePyramid_mono sq f (f+1) (by omega) _ _ _ _ h3',
      createSpherePyramid_mono sq f (f+1) (by omega) _ _ _ _ h4', ?_⟩
    rw [createSpherePyramid, if_neg hl, h1', h2', h3', h4']

/-- Witness for C6: at level 1 the builder yields exactly the leaf
sphere. -/
theorem C6_witness :
    createSpherePyramid (fun q => q) 1 1 ⟨0, 0, 0⟩ 1 =
      some (.sphere ⟨⟨0, 0, 0⟩, 1⟩) :=
  (C6_pyramid_structure (fun q => q) 1 ⟨0, 0, 0⟩ 1 1 (by norm_num)
    (by norm_num)).1 rfl




theorem setRayDirForPixel_eq (sq : ℚ → ℚ) (cam : Camera) (px py : ℚ) :
    cam.setRayDirForPixel sq px py =
      normalize sq ⟨px - (cam.w : ℚ) / 2, py - (cam.h : ℚ) / 2, (cam.w : ℚ)⟩ := by
  have h1 : px - (cam.w : ℚ) * (1/2) = px - (cam.w : ℚ) / 2 := by ring
  have h2 : py - (cam.h : ℚ) * (1/2) = py - (cam.h : ℚ) / 2 := by ring
  rw [Camera.setRayDirForPixel, h1, h2]

/-- C7: for every pixel or fractional sub-sample coordinate (px, py)
the camera ray direction is the normalization of
`(px - w/2, py - h/2, w)` — the depth component equals the image
width — and every ray traced by the renderer has the fixed eye point
as origin. -/
theorem C7_camera_ray (sq : ℚ → ℚ) (cam : Camera) (px py : ℚ)
    (ren : Renderer) (x y : ℕ) :
    cam.setRayDirForPixel sq px py =
      normalize sq ⟨px - (cam.w : ℚ) / 2, py - (cam.h : ℚ) / 2, (cam.w : ℚ)⟩ ∧
    subSampleColor sq ren x y =
      List.foldl (fun g ssx =>
        List.foldl (fun g ssy =>
          vec3add g (ren.scene.rayTrace sq
            ⟨ren.cam.eye,
             normalize sq
               ⟨((x : ℚ) + (ssx : ℚ) / (ren.ss : ℚ)) - (ren.cam.w : ℚ) / 2,
                ((y : ℚ) + (ssy : ℚ) / (ren.ss : ℚ)) - (ren.cam.h : ℚ) / 2,
                (ren.cam.w : ℚ)⟩⟩))
          g (List.range ren.ss))
        ⟨0, 0, 0⟩ (List.range ren.ss) := by
  refine ⟨setRayDirForPixel_eq sq cam px py, ?_⟩
  simp only [subSampleColor, setRayDirForPixel_eq]

theorem SetV_w (t : Texture) (x y : ℕ) (v : Vec3) : (t.SetV x y v).w = t.w := rfl

theorem SetV_h (t : Texture) (x y : ℕ) (v : Vec3) : (t.SetV x y v).h = t.h := rfl

theorem setV_buf (t : Texture) (x row : ℕ) (v : Vec3) (hx : x < t.w) (i : ℕ) :
    (t.SetV x row v).buf i =
      if i / 4 % t.w = x ∧ i / 4 / t.w = row then pixByte v (i % 4) else t.buf i := by
  have hw : 0 < t.w := lt_of_le_of_lt (Nat.zero_le x) hx
  by_cases hc : i / 4 % t.w = x ∧ i / 4 / t.w = row
  · rw [if_pos hc]
    obtain ⟨hcx, hcr⟩ := hc
    have hi4 : t.w * row + x = i / 4 := by
      have h := Nat.div_add_mod (i / 4) t.w
      rw [hcr, hcx] at h
      exact h
    have hik : i = 4 * (t.w * row + x) + i % 4 := by
      have h2 := Nat.div_add_mod i 4
      omega
    simp only [Texture.SetV, Texture.SetRgba, updByte]
    have h0 : i % 4 = 0 ∨ i % 4 = 1 ∨ i % 4 = 2 ∨ i % 4 = 3 := by omega
    rcases h0 with h0|h0|h0|h0
    · rw [h0, if_neg (by omega), if_neg (by omega), if_neg (by omega),
        if_pos (by omega)]
      simp [pixByte]
    · rw [h0, if_neg (by omega), if_neg (by omega), if_pos (by omega)]
      simp [pixByte]
    · rw [h0, if_neg (by omega), if_pos (by omega)]
      simp [pixByte]
    · rw [h0, if_pos (by omega)]
      simp [pixByte]
  · rw [if_neg hc]
    simp only [Texture.SetV, Texture.SetRgba, updByte]
    have hdec : ∀ k : ℕ, k < 4 → i = 4 * (t.w * row + x) + k →
        i / 4 % t.w = x ∧ i / 4 / t.w = row := by
      intro k hk heq
      have h1 : i / 4 = t.w * row + x := by omega
      refine ⟨?_, ?_⟩
      · rw [h1, Nat.mul_add_mod, Nat.mod_eq_of_lt hx]
      · rw [h1, Nat.mul_add_div hw, Nat.div_eq_of_lt hx]
        omega
    have h3 : ¬ (i = 4 * (t.w * row + x) + 3) := fun h => hc (hdec 3 (by norm_num) h)
    have h2 : ¬ (i = 4 * (t.w * row + x) + 2) := fun h => hc (hdec 2 (by norm_num) h)
    have h1 : ¬ (i = 4 * (t.w * row + x) + 1) := fun h => hc (hdec 1 (by norm_num) h)
    have h0 : ¬ (i = 4 * (t.w * row + x)) :=
      fun h => hc (hdec 0 (by norm_num) (by omega))
    rw [if_neg h3, if_neg h2, if_neg h1, if_neg h0]

theorem foldSetV_w (camH : ℕ) (F : ℕ → ℕ → Vec3) (L : List (ℕ × ℕ)) (t : Texture) :
    (List.foldl (fun t p => Texture.SetV t p.1 (camH - (p.2 + 1)) (F p.1 p.2)) t L).w = t.w := by
  induction L generalizing t with
  | nil => rfl
  | cons p L ih => rw [List.foldl_cons, ih, SetV_w]

theorem foldSetV_h (camH : ℕ) (F : ℕ → ℕ → Vec3) (L : List (ℕ × ℕ)) (t : Texture) :
    (List.foldl (fun t p => Texture.SetV t p.1 (camH - (p.2 + 1)) (F p.1 p.2)) t L).h = t.h := by
  induction L generalizing t with
  | nil => rfl
  | cons p L ih => rw [List.foldl_cons, ih, SetV_h]

theorem foldSetV_buf (camH : ℕ) (F : ℕ → ℕ → Vec3) :
    ∀ (L : List (ℕ × ℕ)) (t : Texture) (i : ℕ),
      (∀ p ∈ L, p.1 < t.w ∧ p.2 < camH) →
      (List.foldl (fun t p => Texture.SetV t p.1 (camH - (p.2 + 1)) (F p.1 p.2)) t L).buf i =
        if (L.any fun p =>
            decide (i / 4 % t.w = p.1 ∧ camH - (p.2 + 1) = i / 4 / t.w)) = true
        then pixByte (F (i / 4 % t.w) (camH - 1 - i / 4 / t.w)) (i % 4)
        else t.buf i := by
  intro L
  induction L with
  | nil => intro t i _; simp
  | cons p L ih =>
      intro t i hall
      obtain ⟨hp, hall2⟩ := List.forall_mem_cons.mp hall
      rw [List.foldl_cons]
      have hall3 : ∀ q ∈ L,
          q.1 < (Texture.SetV t p.1 (camH - (p.2 + 1)) (F p.1 p.2)).w ∧ q.2 < camH := by
        rw [SetV_w]; exact hall2
      rw [ih _ i hall3, SetV_w, List.any_cons]
      by_cases hL : (L.any fun q =>
          decide (i / 4 % t.w = q.1 ∧ camH - (q.2 + 1) = i / 4 / t.w)) = true
      · rw [hL, Bool.or_true, if_pos rfl, if_pos rfl]
      · rw [Bool.eq_false_iff.mpr hL, Bool.or_false,
          if_neg (by simp), setV_buf t p.1 (camH - (p.2 + 1)) (F p.1 p.2) hp.1 i]
        by_cases hm : i / 4 % t.w = p.1 ∧ camH - (p.2 + 1) = i / 4 / t.w
        · rw [if_pos ⟨hm.1, hm.2.symm⟩, if_pos (by simp [hm.1, hm.2])]
          have hy : camH - 1 - i / 4 / t.w = p.2 := by
            have h1 := hm.2
            have h2 := hp.2
            omega
          rw [hm.1, hy]
        · rw [if_neg (fun hcon => hm ⟨hcon.1, hcon.2.symm⟩),
            if_neg (by simpa using hm)]

theorem foldl_flatMap_eq {α β γ : Type} (f : β → α → β) (g : γ → List α)
    (L : List γ) (b : β) :
    List.foldl f b (L.flatMap g) = List.foldl (fun b c => List.foldl f b (g c)) b L := by
  induction L generalizing b with
  | nil => rfl
  | cons c L ih => rw [List.flatMap_cons, List.foldl_append, List.foldl_cons, ih]

theorem renderRect_eq_fold (sq : ℚ → ℚ) (ren : Renderer) (tint : Vec3)
    (t : Texture) (rc : Rect) :
    ren.renderRect sq tint t rc =
      List.foldl (fun t p =>
        Texture.SetV t p.1 (ren.cam.h - (p.2 + 1)) (pixelColor sq ren p.1 p.2))
        t (pixList rc) := by
  rw [Renderer.renderRect, pixList, foldl_flatMap_eq]
  congr 1
  funext t y
  rw [List.foldl_map]
  rfl

theorem mem_pixList (rc : Rect) (p : ℕ × ℕ) :
    p ∈ pixList rc ↔ (rc.l ≤ p.1 ∧ p.1 < rc.r) ∧ (rc.t ≤ p.2 ∧ p.2 < rc.b) := by
  cases p with
  | mk x y =>
      simp only [pixList, List.mem_flatMap, List.mem_map, List.mem_range'_1]
      constructor
      · rintro ⟨y', ⟨hy1, hy2⟩, x', ⟨hx1, hx2⟩, heq⟩
        obtain ⟨rfl, rfl⟩ := Prod.mk.injEq x' y' x y ▸ And.intro (congrArg Prod.fst heq) (congrArg Prod.snd heq)
        constructor <;> omega
      · rintro ⟨⟨h1, h2⟩, ⟨h3, h4⟩⟩
        exact ⟨y, ⟨by omega, by omega⟩, x, ⟨by omega, by omega⟩, rfl⟩


theorem f2b_eq_clamp (f : ℚ) :
    (f2b f : ℤ) = max 0 (min 255 (Int.floor (1/2 + f * 255))) := by
  simp only [f2b]
  by_cases h0 : (1/2 + f * 255 : ℚ) < 0
  · rw [if_pos h0]
    have h1 : Int.floor (1/2 + f * 255 : ℚ) < 0 := by
      rw [Int.floor_lt]
      exact_mod_cast h0
    rw [min_eq_right (by omega : Int.floor (1/2 + f * 255 : ℚ) ≤ (255:ℤ)),
      max_eq_left (by omega : Int.floor (1/2 + f * 255 : ℚ) ≤ (0:ℤ))]
    simp
  · rw [if_neg h0]
    by_cases h255 : (1/2 + f * 255 : ℚ) > 255
    · rw [if_pos h255]
      have h1 : (255:ℤ) ≤ Int.floor (1/2 + f * 255 : ℚ) := by
        rw [Int.le_floor]
        push_cast
        linarith
      rw [min_eq_left h1, max_eq_right (by norm_num : (0:ℤ) ≤ 255)]
      simp
    · rw [if_neg h255]
      have hge : (0:ℚ) ≤ 1/2 + f * 255 := not_lt.mp h0
      have hle : (1/2 + f * 255 : ℚ) ≤ 255 := not_lt.mp h255
      have hfl0 : (0:ℤ) ≤ Int.floor (1/2 + f * 255 : ℚ) := Int.floor_nonneg.mpr hge
      have hfl255 : Int.floor (1/2 + f * 255 : ℚ) ≤ 255 := by
        have h2 : Int.floor (1/2 + f * 255 : ℚ) ≤ Int.floor (255 : ℚ) :=
          Int.floor_mono hle
        simpa using h2
      have hRat : Rat.floor (1/2 + f * 255 : ℚ) = Int.floor (1/2 + f * 255 : ℚ) := rfl
      rw [hRat, min_eq_right hfl255, max_eq_right hfl0, Int.toNat_of_nonneg hfl0]

theorem decode_idx (W row x k : ℕ) (hx : x < W) (hk : k < 4) :
    (4 * (W * row + x) + k) / 4 % W = x ∧
    (4 * (W * row + x) + k) / 4 / W = row ∧
    (4 * (W * row + x) + k) % 4 = k := by
  have hw : 0 < W := lt_of_le_of_lt (Nat.zero_le x) hx
  have h1 : (4 * (W * row + x) + k) / 4 = W * row + x := by omega
  refine ⟨?_, ?_, by omega⟩
  · rw [h1, Nat.mul_add_mod, Nat.mod_eq_of_lt hx]
  · rw [h1, Nat.mul_add_div hw, Nat.div_eq_of_lt hx]
    omega

/-- C8: for every pixel (x, y) of a tile, the renderer sums the
traced colors of the ss × ss sub-samples at `(x + i/ss, y + j/ss)`,
divides by ss², and writes the averaged color to framebuffer row
`h - 1 - y`, column `x` (byte offset `4*(w*(h-1-y)+x)`), converting
each channel by `byte = clamp(floor(0.5 + component*255), 0, 255)`
with alpha fixed at 255. -/
theorem C8_renderRect_pixel (sq : ℚ → ℚ) (ren : Renderer) (tint : Vec3)
    (t : Texture) (rc : Rect) (x y k : ℕ)
    (hx1 : rc.l ≤ x) (hx2 : x < rc.r) (hy1 : rc.t ≤ y) (hy2 : y < rc.b)
    (hw : rc.r ≤ t.w) (hh : rc.b ≤ ren.cam.h) (hk : k < 4) :
    (ren.renderRect sq tint t rc).buf
        (4 * (t.w * (ren.cam.h - 1 - y) + x) + k) =
      pixByte (pixelColor sq ren x y) k ∧
    pixelColor sq ren x y =
      vec3mulf (subSampleColor sq ren x y) (1 / ((ren.ss * ren.ss : ℕ) : ℚ)) ∧
    pixByte (pixelColor sq ren x y) 3 = 255 ∧
    (∀ f : ℚ, (f2b f : ℤ) = max 0 (min 255 (Int.floor (1/2 + f * 255)))) := by
  refine ⟨?_, rfl, rfl, f2b_eq_clamp⟩
  have hxw : x < t.w := lt_of_lt_of_le hx2 hw
  have hyh : y < ren.cam.h := lt_of_lt_of_le hy2 hh
  obtain ⟨hd1, hd2, hd3⟩ := decode_idx t.w (ren.cam.h - 1 - y) x k hxw hk
  rw [renderRect_eq_fold, foldSetV_buf ren.cam.h (pixelColor sq ren) (pixList rc) t _
    (by
      intro p hp
      rw [mem_pixList] at hp
      exact ⟨lt_of_lt_of_le hp.1.2 hw, lt_of_lt_of_le hp.2.2 hh⟩)]
  rw [if_pos]
  · rw [hd1, hd2, hd3]
    have hyy : ren.cam.h - 1 - (ren.cam.h - 1 - y) = y := by omega
    rw [hyy]
  · rw [List.any_eq_true]
    refine ⟨(x, y), ?_, ?_⟩
    · rw [mem_pixList]
      exact ⟨⟨hx1, hx2⟩, ⟨hy1, hy2⟩⟩
    · rw [decide_eq_true_eq]
      refine ⟨hd1, ?_⟩
      rw [hd2]
      omega

theorem renderRect_w (sq : ℚ → ℚ) (ren : Renderer) (tint : Vec3)
    (t : Texture) (rc : Rect) : (ren.renderRect sq tint t rc).w = t.w := by
  rw [renderRect_eq_fold, foldSetV_w]

theorem renderRect_h (sq : ℚ → ℚ) (ren : Renderer) (tint : Vec3)
    (t : Texture) (rc : Rect) : (ren.renderRect sq tint t rc).h = t.h := by
  rw [renderRect_eq_fold, foldSetV_h]

theorem renderRect_buf (sq : ℚ → ℚ) (ren : Renderer) (tint : Vec3)
    (t : Texture) (rc : Rect) (i : ℕ)
    (hw : rc.r ≤ t.w) (hh : rc.b ≤ ren.cam.h) :
    (ren.renderRect sq tint t rc).buf i =
      if coversByte ren.cam.h t.w rc i = true
      then pixByte (pixelColor sq ren (i / 4 % t.w) (ren.cam.h - 1 - i / 4 / t.w)) (i % 4)
      else t.buf i := by
  rw [renderRect_eq_fold, foldSetV_buf ren.cam.h (pixelColor sq ren) (pixList rc) t i
    (by
      intro p hp
      rw [mem_pixList] at hp
      exact ⟨lt_of_lt_of_le hp.1.2 hw, lt_of_lt_of_le hp.2.2 hh⟩)]
  have hcond : ((pixList rc).any fun p =>
      decide (i / 4 % t.w = p.1 ∧ ren.cam.h - (p.2 + 1) = i / 4 / t.w)) =
      coversByte ren.cam.h t.w rc i := by
    apply Bool.eq_iff_iff.mpr
    rw [List.any_eq_true]
    simp only [coversByte, Bool.and_eq_true, decide_eq_true_eq]
    constructor
    · rintro ⟨p, hmem, hcnd⟩
      rw [mem_pixList] at hmem
      have hyb : p.2 < ren.cam.h := lt_of_lt_of_le hmem.2.2 hh
      obtain ⟨⟨hl1, hl2⟩, ⟨ht1, ht2⟩⟩ := hmem
      obtain ⟨hcx, hcy⟩ := hcnd
      refine ⟨⟨⟨⟨?_, ?_⟩, ?_⟩, ?_⟩, ?_⟩ <;> omega
    · rintro ⟨⟨⟨⟨h1, h2⟩, h3⟩, h4⟩, h5⟩
      refine ⟨(i / 4 % t.w, ren.cam.h - 1 - i / 4 / t.w), ?_, ?_⟩
      · rw [mem_pixList]
        exact ⟨⟨h1, h2⟩, ⟨h3, h4⟩⟩
      · exact ⟨rfl, by omega⟩
  rw [hcond]

theorem foldRects_w (sq : ℚ → ℚ) (ren : Renderer) (tint : Vec3) :
    ∀ (L : List Rect) (t : Texture),
      (List.foldl (fun tx rc => ren.renderRect sq tint tx rc) t L).w = t.w := by
  intro L
  induction L with
  | nil => intro t; rfl
  | cons rc L ih => intro t; rw [List.foldl_cons, ih, renderRect_w]

theorem foldRects_h (sq : ℚ → ℚ) (ren : Renderer) (tint : Vec3) :
    ∀ (L : List Rect) (t : Texture),
      (List.foldl (fun tx rc => ren.renderRect sq tint tx rc) t L).h = t.h := by
  intro L
  induction L with
  | nil => intro t; rfl
  | cons rc L ih => intro t; rw [List.foldl_cons, ih, renderRect_h]

theorem foldRects_buf (sq : ℚ → ℚ) (ren : Renderer) (tint : Vec3) :
    ∀ (L : List Rect) (t : Texture) (i : ℕ),
      (∀ rc ∈ L, rc.r ≤ t.w ∧ rc.b ≤ ren.cam.h) →
      (List.foldl (fun tx rc => ren.renderRect sq tint tx rc) t L).buf i =
        if (L.any fun rc => coversByte ren.cam.h t.w rc i) = true
        then pixByte (pixelColor sq ren (i / 4 % t.w) (ren.cam.h - 1 - i / 4 / t.w)) (i % 4)
        else t.buf i := by
  intro L
  induction L with
  | nil => intro t i _; simp
  | cons rc L ih =>
      intro t i hall
      obtain ⟨hrc, hall2⟩ := List.forall_mem_cons.mp hall
      rw [List.foldl_cons]
      have hall3 : ∀ q ∈ L,
          q.r ≤ (ren.renderRect sq tint t rc).w ∧ q.b ≤ ren.cam.h := by
        rw [renderRect_w]; exact hall2
      rw [ih _ i hall3, renderRect_w, List.any_cons]
      by_cases hL : (L.any fun q => coversByte ren.cam.h t.w q i) = true
      · rw [hL, Bool.or_true, if_pos rfl, if_pos rfl]
      · rw [Bool.eq_false_iff.mpr hL, Bool.or_false, if_neg (by simp),
          renderRect_buf sq ren tint t rc i hrc.1 hrc.2]

theorem texture_eq (a b : Texture) (hw : a.w = b.w) (hh : a.h = b.h)
    (hbuf : a.buf = b.buf) : a = b := by
  cases a
  cases b
  simp only [Texture.mk.injEq]
  exact ⟨hw, hh, hbuf⟩

theorem mem_tileJobs (w h T : ℕ) (rc : Rect) :
    rc ∈ tileJobs w h T T ↔
      ∃ i j : ℕ, i < (w + T - 1) / T ∧ j < (h + T - 1) / T ∧
        rc = ⟨T * i, T * j, T * i + T, T * j + T⟩ := by
  simp only [tileJobs, List.mem_flatMap, List.mem_map, List.mem_range']
  constructor
  · rintro ⟨y, ⟨j, hj, rfl⟩, x, ⟨i, hi, rfl⟩, rfl⟩
    exact ⟨i, j, hi, hj, by simp [Nat.zero_add]⟩
  · rintro ⟨i, j, hi, hj, rfl⟩
    exact ⟨T * j, ⟨j, hj, by omega⟩, T * i, ⟨i, hi, by omega⟩, by simp⟩

theorem ceil_div_of_dvd (T q : ℕ) (hT : 0 < T) : (T * q + T - 1) / T = q := by
  obtain ⟨T', rfl⟩ : ∃ T', T = T' + 1 := ⟨T - 1, by omega⟩
  have h1 : (T' + 1) * q + (T' + 1) - 1 = (T' + 1) * q + T' := by omega
  rw [h1, Nat.mul_add_div hT, Nat.div_eq_of_lt (by omega)]
  omega

/-- C5: with T dividing W and H, the tiles enqueued by the scheduler
partition the image without overlap (each pixel lies in exactly one
tile), and rendering the tiles in any order (any permutation of the
scan-order job list, tints differing as for distinct workers) yields a
framebuffer pixel-for-pixel identical to rendering them
single-threaded in row-major scan order. -/
theorem C5_tiles_partition_determinism (sq : ℚ → ℚ) (ren : Renderer)
    (tint tint' : Vec3) (t : Texture) (T : ℕ)
    (hT : 0 < T) (hWT : T ∣ t.w) (hHT : T ∣ ren.cam.h)
    (L' : List Rect) (hperm : (tileJobs t.w ren.cam.h T T).Perm L') :
    (∀ px py : ℕ, px < t.w → py < ren.cam.h →
      ∃! rc : Rect, rc ∈ tileJobs t.w ren.cam.h T T ∧ rc.containsPix px py) ∧
    List.foldl (fun tx rc => ren.renderRect sq tint tx rc) t L' =
      List.foldl (fun tx rc => ren.renderRect sq tint' tx rc) t
        (tileJobs t.w ren.cam.h T T) := by
  obtain ⟨qw, hqw⟩ := hWT
  obtain ⟨qh, hqh⟩ := hHT
  have hcw : (t.w + T - 1) / T = qw := by rw [hqw]; exact ceil_div_of_dvd T qw hT
  have hch : (ren.cam.h + T - 1) / T = qh := by rw [hqh]; exact ceil_div_of_dvd T qh hT
  have hbounds : ∀ rc ∈ tileJobs t.w ren.cam.h T T,
      rc.r ≤ t.w ∧ rc.b ≤ ren.cam.h := by
    intro rc hrc
    rw [mem_tileJobs] at hrc
    obtain ⟨i, j, hi, hj, rfl⟩ := hrc
    rw [hcw] at hi
    rw [hch] at hj
    constructor
    · show T * i + T ≤ t.w
      rw [hqw]
      calc T * i + T = T * (i + 1) := by ring
        _ ≤ T * qw := Nat.mul_le_mul_left T (by omega)
    · show T * j + T ≤ ren.cam.h
      rw [hqh]
      calc T * j + T = T * (j + 1) := by ring
        _ ≤ T * qh := Nat.mul_le_mul_left T (by omega)
  constructor
  · -- partition: every in-bounds pixel lies in exactly one enqueued tile
    intro px py hpx hpy
    have hdx := Nat.div_add_mod px T
    have hmx := Nat.mod_lt px hT
    have hdy := Nat.div_add_mod py T
    have hmy := Nat.mod_lt py hT
    refine ⟨⟨T * (px / T), T * (py / T), T * (px / T) + T, T * (py / T) + T⟩,
      ⟨?_, ?_⟩, ?_⟩
    · rw [mem_tileJobs]
      refine ⟨px / T, py / T, ?_, ?_, rfl⟩
      · rw [hcw, Nat.div_lt_iff_lt_mul hT]
        rw [hqw] at hpx
        have hcomm : qw * T = T * qw := Nat.mul_comm qw T
        omega
      · rw [hch, Nat.div_lt_iff_lt_mul hT]
        rw [hqh] at hpy
        have hcomm : qh * T = T * qh := Nat.mul_comm qh T
        omega
    · exact ⟨by show T * (px / T) ≤ px; omega,
        by show px < T * (px / T) + T; omega,
        by show T * (py / T) ≤ py; omega,
        by show py < T * (py / T) + T; omega⟩
    · rintro rc' ⟨hmem, hcont⟩
      rw [mem_tileJobs] at hmem
      obtain ⟨i, j, hi, hj, rfl⟩ := hmem
      obtain ⟨hc1, hc2, hc3, hc4⟩ := hcont
      have hc1' : T * i ≤ px := hc1
      have hc2' : px < T * i + T := hc2
      have hc3' : T * j ≤ py := hc3
      have hc4' : py < T * j + T := hc4
      have hieq : i = px / T := by
        have ha : i * T = T * i := Nat.mul_comm i T
        have hb : (i + 1) * T = T * i + T := by ring
        have h1 : i ≤ px / T := (Nat.le_div_iff_mul_le hT).mpr (by omega)
        have h2 : px / T < i + 1 := (Nat.div_lt_iff_lt_mul hT).mpr (by omega)
        omega
      have hjeq : j = py / T := by
        have ha : j * T = T * j := Nat.mul_comm j T
        have hb : (j + 1) * T = T * j + T := by ring
        have h1 : j ≤ py / T := (Nat.le_div_iff_mul_le hT).mpr (by omega)
        have h2 : py / T < j + 1 := (Nat.div_lt_iff_lt_mul hT).mpr (by omega)
        omega
      rw [hieq, hjeq]
  · -- determinism: any permutation of the tile jobs gives the same texture
    have hboundsL : ∀ rc ∈ L', rc.r ≤ t.w ∧ rc.b ≤ ren.cam.h :=
      fun rc hrc => hbounds rc (hperm.mem_iff.mpr hrc)
    apply texture_eq
    · rw [foldRects_w, foldRects_w]
    · rw [foldRects_h, foldRects_h]
    · funext i
      rw [foldRects_buf sq ren tint L' t i hboundsL,
        foldRects_buf sq ren tint' (tileJobs t.w ren.cam.h T T) t i hbounds]
      have hany : (L'.any fun rc => coversByte ren.cam.h t.w rc i) =
          ((tileJobs t.w ren.cam.h T T).any fun rc => coversByte ren.cam.h t.w rc i) := by
        apply Bool.eq_iff_iff.mpr
        rw [List.any_eq_true, List.any_eq_true]
        constructor
        · rintro ⟨rc, hrc, hcov⟩
          exact ⟨rc, hperm.mem_iff.mpr hrc, hcov⟩
        · rintro ⟨rc, hrc, hcov⟩
          exact ⟨rc, hperm.mem_iff.mp hrc, hcov⟩
      rw [hany]

/-- Witness for C8: a 1×1 tile on a 1×1 image writes the alpha byte
of pixel (0,0). -/
theorem C8_witness :
    (Renderer.renderRect (fun q => q)
        ⟨⟨⟨0, 0, 1⟩, .sphere ⟨⟨0, 0, 5⟩, 1⟩⟩, ⟨⟨0, 0, -4⟩, 1, 1⟩, 1⟩ ⟨0, 0, 0⟩
        ⟨1, 1, fun _ => 0⟩ ⟨0, 0, 1, 1⟩).buf (4 * (1 * (1 - 1 - 0) + 0) + 3) =
      pixByte (pixelColor (fun q => q)
        ⟨⟨⟨0, 0, 1⟩, .sphere ⟨⟨0, 0, 5⟩, 1⟩⟩, ⟨⟨0, 0, -4⟩, 1, 1⟩, 1⟩ 0 0) 3 :=
  (C8_renderRect_pixel (fun q => q)
    ⟨⟨⟨0, 0, 1⟩, .sphere ⟨⟨0, 0, 5⟩, 1⟩⟩, ⟨⟨0, 0, -4⟩, 1, 1⟩, 1⟩ ⟨0, 0, 0⟩
    ⟨1, 1, fun _ => 0⟩ ⟨0, 0, 1, 1⟩ 0 0 3
    (by norm_num) (by norm_num) (by norm_num) (by norm_num)
    (by norm_num) (by norm_num) (by norm_num)).1

/-- Witness for C5: a 2×2 image with 1×1 tiles rendered in reverse
order equals scan order. -/
theorem C5_witness :
    List.foldl (fun tx rc => Renderer.renderRect (fun q => q)
        ⟨⟨⟨0, 0, 1⟩, .sphere ⟨⟨0, 0, 5⟩, 1⟩⟩, ⟨⟨0, 0, -4⟩, 2, 2⟩, 1⟩ ⟨0, 0, 0⟩ tx rc)
      ⟨2, 2, fun _ => 0⟩ (tileJobs 2 2 1 1).reverse =
    List.foldl (fun tx rc => Renderer.renderRect (fun q => q)
        ⟨⟨⟨0, 0, 1⟩, .sphere ⟨⟨0, 0, 5⟩, 1⟩⟩, ⟨⟨0, 0, -4⟩, 2, 2⟩, 1⟩ ⟨1, 0, 0⟩ tx rc)
      ⟨2, 2, fun _ => 0⟩ (tileJobs 2 2 1 1) :=
  (C5_tiles_partition_determinism (fun q => q)
    ⟨⟨⟨0, 0, 1⟩, .sphere ⟨⟨0, 0, 5⟩, 1⟩⟩, ⟨⟨0, 0, -4⟩, 2, 2⟩, 1⟩ ⟨0, 0, 0⟩ ⟨1, 0, 0⟩
    ⟨2, 2, fun _ => 0⟩ 1 Nat.one_pos (one_dvd _) (one_dvd _)
    (tileJobs 2 2 1 1).reverse (List.reverse_perm _).symm).2

/-- C9: invalid construction parameters — recursion level < 1,
non-positive image dimensions, or a zero tile size — are rejected
eagerly: the scheduling entry point returns an error and no tile list
is ever produced. -/
theorem C9_invalid_config_rejected (c : Config)
    (hbad : c.level < 1 ∨ c.width ≤ 0 ∨ c.height ≤ 0 ∨ c.tileW = 0 ∨ c.tileH = 0) :
    scheduleTiles c = .error "invalid parameters" ∧
    ∀ ts : List Rect, scheduleTiles c ≠ .ok ts := by
  have hval : ¬ validConfig c = true := by
    simp only [validConfig, Bool.and_eq_true, decide_eq_true_eq]
    rintro ⟨⟨⟨⟨⟨⟨h1, h2⟩, h3⟩, h4⟩, h5⟩, h6⟩, h7⟩
    omega
  refine ⟨?_, ?_⟩
  · rw [scheduleTiles, if_neg hval]
  · intro ts h
    rw [scheduleTiles, if_neg hval] at h
    cases h

/-- Witness for C9: recursion level 0 is rejected before any tile is
scheduled. -/
theorem C9_witness :
    scheduleTiles ⟨0, 1024, 1024, 4, 8, 16, 16⟩ = .error "invalid parameters" :=
  (C9_invalid_config_rejected ⟨0, 1024, 1024, 4, 8, 16, 16⟩
    (Or.inl (by norm_num))).1

end GoTrace
